import Mathlib

/-! Verification of the Mandelbrot OpenCL kernels in src/main_cp.rs and
src/src/main.rs. The float arithmetic of the kernel loop is modelled exactly
over the rationals; the OpenCL functions sinpi and round, and the log2-based
continuous mapper, are modelled over the reals. Both kernels share the same
constants, pixel transform and escape loop; they differ only in what they
write (raw iteration counts versus discrete palette colors). -/

/-- Host constant MAX_ITER = 256, passed to the kernel as iter_limit in both
main_cp.rs and src/main.rs. -/
def MAX_ITER : ℕ := 256

/-- Kernel constant: const float r_max = -2.25f. Note that the kernel assigns
the left viewport edge -2.25 to the name r_max. -/
def r_max : ℚ := -9/4

/-- Kernel constant: const float r_min = 0.75f. -/
def r_min : ℚ := 3/4

/-- Kernel constant: const float c_max = 1.5f. -/
def c_max : ℚ := 3/2

/-- Kernel constant: const float c_min = -1.5f. -/
def c_min : ℚ := -3/2

/-- Squared magnitude x*x + y*y as used in the kernel escape test. -/
def normSq (z : ℚ × ℚ) : ℚ := z.1 * z.1 + z.2 * z.2

/-- One kernel loop body update: xn = x*x - y*y + x0; y = 2*x*y + y0; x = xn. -/
def escapeStep (c z : ℚ × ℚ) : ℚ × ℚ :=
  (z.1 * z.1 - z.2 * z.2 + c.1, 2 * z.1 * z.2 + c.2)

/-- The orbit of the kernel recurrence: z 0 = (0,0) and z (n+1) = z n ^ 2 + c. -/
def orbit (c : ℚ × ℚ) : ℕ → ℚ × ℚ
  | 0 => (0, 0)
  | n + 1 => escapeStep c (orbit c n)

/-- The kernel for-loop, with fuel n standing for iter_limit - iteration:
the body updates z and breaks with the current counter (the increment in the
for-header is skipped by break) when x*x + y*y > 2.0f; when the fuel runs out
the loop exits with iteration = iter_limit. -/
def mandelIter (c : ℚ × ℚ) : ℚ × ℚ → ℕ → ℕ → ℕ
  | _, iteration, 0 => iteration
  | z, iteration, n + 1 =>
    if 2 < normSq (escapeStep c z) then iteration
    else mandelIter c (escapeStep c z) (iteration + 1) n

/-- The escape-time evaluator of both kernels: x = 0, y = 0, then the loop
for (iteration = 0; iteration < iter_limit; iteration++). -/
def evaluate (c : ℚ × ℚ) (iter_limit : ℕ) : ℕ := mandelIter c (0, 0) 0 iter_limit

/-- Modelled from the spec (claim C1 wording): z starts at 0 + 0i, each step
sets z = z*z + c and increments the counter, the current counter is returned
as soon as the squared magnitude exceeds 4.0, and iter_limit is returned when
the counter reaches iter_limit without escape. -/
def specEvalAux (c : ℚ × ℚ) : ℚ × ℚ → ℕ → ℕ → ℕ
  | _, counter, 0 => counter
  | z, counter, n + 1 =>
    if 4 < normSq (escapeStep c z) then counter + 1
    else specEvalAux c (escapeStep c z) (counter + 1) n

/-- Modelled from the spec: the escape-time evaluator as claim C1 words it. -/
def specEvaluate (c : ℚ × ℚ) (iter_limit : ℕ) : ℕ := specEvalAux c (0, 0) 0 iter_limit

/-- Pixel-to-plane transform of both kernels:
x0 = r_min + px * ((r_max - r_min) / width) and
y0 = c_min + py * ((c_max - c_min) / height). -/
def pixelToPlane (width height px py : ℕ) : ℚ × ℚ :=
  (r_min + px * ((r_max - r_min) / width), c_min + py * ((c_max - c_min) / height))

/-- Iteration count the main_cp.rs kernel writes for pixel (px, py). -/
def kernelPixel (width height px py iter_limit : ℕ) : ℕ :=
  evaluate (pixelToPlane width height px py) iter_limit

/-- The iteration buffer in row-major order: entry i is written at
iterations[width * py + px], so px = i % width and py = i / width. -/
def iterationBuffer (width height iter_limit : ℕ) : List ℕ :=
  (List.range (width * height)).map fun i =>
    kernelPixel width height (i % width) (i / width) iter_limit

lemma mandelIter_le (c : ℚ × ℚ) (n : ℕ) : ∀ z i, mandelIter c z i n ≤ i + n := by
  induction n with
  | zero => intro z i; simp [mandelIter]
  | succ n ih =>
    intro z i
    rw [mandelIter]
    split
    · omega
    · have h := ih (escapeStep c z) (i + 1)
      omega

/-- C4: every value placed in the iteration buffer lies in [0, iter_limit]. -/
theorem iterationBuffer_mem_le (width height iter_limit : ℕ) (hL : 0 < iter_limit) :
    ∀ v ∈ iterationBuffer width height iter_limit, v ≤ iter_limit := by
  intro v hv
  simp only [iterationBuffer, List.mem_map] at hv
  obtain ⟨i, _, rfl⟩ := hv
  have h := mandelIter_le (pixelToPlane width height (i % width) (i / width)) iter_limit (0, 0) 0
  simpa [kernelPixel, evaluate] using h

/-- Witness for C4 at a 1 x 1 grid with iter_limit = 3: the single buffer
entry is 0 and the bound holds. -/
theorem iterationBuffer_mem_le_witness : (0 : ℕ) ≤ 3 :=
  iterationBuffer_mem_le 1 1 3 (by decide) 0 (by
    norm_num [iterationBuffer, kernelPixel, evaluate, pixelToPlane, mandelIter,
      escapeStep, normSq, r_min, r_max, c_min, c_max, List.range_succ])

lemma mandelIter_origin (n : ℕ) : ∀ i, mandelIter (0, 0) (0, 0) i n = i + n := by
  induction n with
  | zero => intro i; simp [mandelIter]
  | succ n ih =>
    intro i
    rw [mandelIter]
    have h1 : escapeStep ((0 : ℚ), (0 : ℚ)) (0, 0) = (0, 0) := by
      simp [escapeStep]
    rw [h1]
    have h2 : ¬ (2 : ℚ) < normSq (0, 0) := by norm_num [normSq]
    rw [if_neg h2, ih]
    omega

/-- C5: at the origin the orbit stays at 0, so the evaluator returns the full
iteration limit for every positive limit. -/
theorem evaluate_origin (L : ℕ) (hL : 0 < L) : evaluate (0, 0) L = L := by
  have h := mandelIter_origin L 0
  simpa [evaluate] using h

/-- Witness for C5 at L = 5. -/
theorem evaluate_origin_witness : evaluate (0, 0) 5 = 5 :=
  evaluate_origin 5 (by decide)

/-- C6: at c = 2 + 0i the first update already gives squared magnitude 4,
which exceeds the threshold 2.0, so the loop breaks with counter 0 and the
result is at most 1 for every limit at least 1. -/
theorem evaluate_two (L : ℕ) (hL : 1 ≤ L) : evaluate (2, 0) L ≤ 1 := by
  obtain ⟨n, rfl⟩ : ∃ n, L = n + 1 := ⟨L - 1, by omega⟩
  have h1 : escapeStep ((2 : ℚ), (0 : ℚ)) (0, 0) = (2, 0) := by
    simp [escapeStep]
  have h2 : (2 : ℚ) < normSq (2, 0) := by norm_num [normSq]
  rw [evaluate, mandelIter, h1, if_pos h2]
  omega

/-- Witness for C6 at L = 1. -/
theorem evaluate_two_witness : evaluate (2, 0) 1 ≤ 1 :=
  evaluate_two 1 (by decide)

/-- C1 counterexample: at c = 1.5 + 0i with iter_limit = 3 the code escapes
at once (squared magnitude 2.25 exceeds the threshold 2.0 of the code) and
returns 0, while the evaluator described by the claim (threshold 4.0, counter
incremented before returning) returns 2. -/
theorem evaluate_vs_spec_counterexample :
    evaluate (3/2, 0) 3 = 0 ∧ specEvaluate (3/2, 0) 3 = 2 ∧
      evaluate (3/2, 0) 3 ≠ specEvaluate (3/2, 0) 3 := by
  refine ⟨?_, ?_, ?_⟩ <;>
    norm_num [evaluate, specEvaluate, mandelIter, specEvalAux, escapeStep, normSq]

lemma mandelIter_spec (c : ℚ × ℚ) (n : ℕ) :
    ∀ i, (mandelIter c (orbit c i) i n = i + n ∧
        ∀ k, i ≤ k → k < i + n → normSq (orbit c (k + 1)) ≤ 2) ∨
      (∃ j, i ≤ j ∧ j < i + n ∧ mandelIter c (orbit c i) i n = j ∧
        2 < normSq (orbit c (j + 1)) ∧
        ∀ k, i ≤ k → k < j → normSq (orbit c (k + 1)) ≤ 2) := by
  induction n with
  | zero =>
    intro i
    left
    refine ⟨by simp [mandelIter], ?_⟩
    intro k h1 h2
    omega
  | succ n ih =>
    intro i
    have hstep : escapeStep c (orbit c i) = orbit c (i + 1) := rfl
    by_cases h : 2 < normSq (orbit c (i + 1))
    · right
      refine ⟨i, le_refl i, by omega, ?_, h, ?_⟩
      · rw [mandelIter, hstep, if_pos h]
      · intro k h1 h2
        omega
    · have hrec : mandelIter c (orbit c i) i (n + 1)
          = mandelIter c (orbit c (i + 1)) (i + 1) n := by
        rw [mandelIter, hstep, if_neg h]
      rcases ih (i + 1) with ⟨heq, hall⟩ | ⟨j, hj1, hj2, hj3, hj4, hj5⟩
      · left
        refine ⟨by rw [hrec, heq]; omega, ?_⟩
        intro k h1 h2
        rcases Nat.eq_or_lt_of_le h1 with h1e | h1l
        · subst h1e
          exact le_of_not_lt h
        · exact hall k h1l (by omega)
      · right
        refine ⟨j, by omega, by omega, by rw [hrec, hj3], hj4, ?_⟩
        intro k h1 h2
        rcases Nat.eq_or_lt_of_le h1 with h1e | h1l
        · subst h1e
          exact le_of_not_lt h
        · exact hj5 k h1l h2

/-- C1 amended: the evaluator starts the orbit at 0 + 0i and iterates
z = z*z + c; it returns the least k below iter_limit whose next orbit point
has squared magnitude strictly greater than 2.0 (the escape check of the code
uses the threshold 2.0 and happens before the counter is incremented), and it
returns iter_limit when no orbit point within iter_limit steps escapes. -/
theorem evaluate_characterization (c : ℚ × ℚ) (L : ℕ) :
    (evaluate c L = L ∧ ∀ k < L, normSq (orbit c (k + 1)) ≤ 2) ∨
    (evaluate c L < L ∧ 2 < normSq (orbit c (evaluate c L + 1)) ∧
      ∀ k < evaluate c L, normSq (orbit c (k + 1)) ≤ 2) := by
  have h := mandelIter_spec c L 0
  have hzero : orbit c 0 = ((0 : ℚ), (0 : ℚ)) := rfl
  rcases h with ⟨h1, h2⟩ | ⟨j, hj1, hj2, hj3, hj4, hj5⟩
  · left
    rw [hzero] at h1
    refine ⟨by simpa [evaluate] using h1, ?_⟩
    intro k hk
    exact h2 k (Nat.zero_le k) (by omega)
  · right
    rw [hzero] at hj3
    have he : evaluate c L = j := by simpa [evaluate] using hj3
    rw [he]
    exact ⟨by omega, hj4, fun k hk => hj5 k (Nat.zero_le k) hk⟩

/-- Small-step state of the kernel loop: either the loop head with the current
z and counter, or the loop has finished with a result. -/
inductive KState where
  | running (z : ℚ × ℚ) (iteration : ℕ) : KState
  | done (result : ℕ) : KState

/-- One evaluation of the loop condition and, when it holds, one loop body:
z is updated, the escape test may break with the current counter, otherwise
the counter is incremented. -/
def kstep (c : ℚ × ℚ) (iter_limit : ℕ) : KState → KState
  | KState.running z iteration =>
    if iteration < iter_limit then
      if 2 < normSq (escapeStep c z) then KState.done iteration
      else KState.running (escapeStep c z) (iteration + 1)
    else KState.done iteration
  | KState.done r => KState.done r

lemma kstep_done (c : ℚ × ℚ) (L : ℕ) (m : ℕ) (r : ℕ) :
    Nat.iterate (kstep c L) m (KState.done r) = KState.done r := by
  induction m with
  | zero => rfl
  | succ m ih => rw [Function.iterate_succ_apply, kstep, ih]

lemma kstep_run (c : ℚ × ℚ) (L : ℕ) (n : ℕ) :
    ∀ z i, i + n = L →
      Nat.iterate (kstep c L) (n + 1) (KState.running z i)
        = KState.done (mandelIter c z i n) := by
  induction n with
  | zero =>
    intro z i hi
    have hlt : ¬ i < L := by omega
    rw [Function.iterate_one, kstep, if_neg hlt, mandelIter]
  | succ n ih =>
    intro z i hi
    have hlt : i < L := by omega
    rw [Function.iterate_succ_apply, kstep, if_pos hlt, mandelIter]
    by_cases h : 2 < normSq (escapeStep c z)
    · rw [if_pos h, if_pos h, kstep_done]
    · rw [if_neg h, if_neg h, ih (escapeStep c z) (i + 1) (by omega)]

/-- C8: the evaluator is total; starting from z = (0,0) and counter 0 the
loop reaches a final state in iter_limit + 1 small steps (at most iter_limit
body executions plus the final condition test), and the result is exactly the
value of the evaluator. -/
theorem evaluate_terminates (c : ℚ × ℚ) (L : ℕ) :
    Nat.iterate (kstep c L) (L + 1) (KState.running (0, 0) 0)
      = KState.done (evaluate c L) :=
  kstep_run c L L (0, 0) 0 (by omega)

/-- C2 counterexample: with the 800 x 800 grid of the program, pixel column 0
maps to real part 0.75 rather than -2.25, and the real part strictly
decreases from column 0 to column 1. -/
theorem pixelToPlane_counterexample :
    (pixelToPlane 800 800 0 0).1 = 3/4 ∧ ((3 : ℚ)/4 ≠ -9/4) ∧
      (pixelToPlane 800 800 1 0).1 < (pixelToPlane 800 800 0 0).1 := by
  refine ⟨?_, by norm_num, ?_⟩ <;>
    norm_num [pixelToPlane, r_min, r_max, c_min, c_max]

lemma pixelToPlane_fst (width height px py : ℕ) :
    (pixelToPlane width height px py).1 = 3/4 - 3 * (px : ℚ) / (width : ℚ) := by
  simp only [pixelToPlane, r_min, r_max]
  ring

lemma pixelToPlane_snd (width height px py : ℕ) :
    (pixelToPlane width height px py).2 = -(3/2) + 3 * (py : ℚ) / (height : ℚ) := by
  simp only [pixelToPlane, c_min, c_max]
  ring

/-- C2 amended: the kernel constants named r_min and r_max hold the swapped
values 0.75 and -2.25, so the transform computes
re = 0.75 - 3 * px / width and im = -1.5 + 3 * py / height; hence pixel
column 0 maps to real part 0.75, real parts strictly decrease with the column
index, and imaginary parts strictly increase with the row index. -/
theorem pixelToPlane_formula (width height px py qx qy : ℕ)
    (hw : 0 < width) (hh : 0 < height) (hx : px < qx) (hy : py < qy) :
    pixelToPlane width height px py
        = (3/4 - 3 * (px : ℚ) / (width : ℚ), -(3/2) + 3 * (py : ℚ) / (height : ℚ)) ∧
      (pixelToPlane width height qx py).1 < (pixelToPlane width height px py).1 ∧
      (pixelToPlane width height px py).2 < (pixelToPlane width height px qy).2 := by
  have hw0 : (0 : ℚ) < (width : ℚ) := by exact_mod_cast hw
  have hh0 : (0 : ℚ) < (height : ℚ) := by exact_mod_cast hh
  have hx0 : (px : ℚ) < (qx : ℚ) := by exact_mod_cast hx
  have hy0 : (py : ℚ) < (qy : ℚ) := by exact_mod_cast hy
  refine ⟨?_, ?_, ?_⟩
  · have h1 := pixelToPlane_fst width height px py
    have h2 := pixelToPlane_snd width height px py
    exact Prod.ext h1 h2
  · rw [pixelToPlane_fst, pixelToPlane_fst]
    have hdiv : 3 * (px : ℚ) / (width : ℚ) < 3 * (qx : ℚ) / (width : ℚ) :=
      (div_lt_div_iff_of_pos_right hw0).mpr (by linarith)
    linarith
  · rw [pixelToPlane_snd, pixelToPlane_snd]
    have hdiv : 3 * (py : ℚ) / (height : ℚ) < 3 * (qy : ℚ) / (height : ℚ) :=
      (div_lt_div_iff_of_pos_right hh0).mpr (by linarith)
    linarith

/-- Witness for C2 amended on a 4 x 4 grid at pixels (0,0), (1,0), (0,1). -/
theorem pixelToPlane_formula_witness :
    (pixelToPlane 4 4 1 0).1 < (pixelToPlane 4 4 0 0).1 :=
  (pixelToPlane_formula 4 4 0 0 1 1 (by decide) (by decide) (by decide) (by decide)).2.1

/-- OpenCL builtin sinpi: sinpi t = sin (pi * t). -/
noncomputable def sinpi (t : ℝ) : ℝ := Real.sin (Real.pi * t)

/-- Palette row index computed by the discrete kernel of src/main.rs for an
escaped pixel: x = iteration * 1.0 / iter_limit; z = round (sinpi (x / 2) * 16). -/
noncomputable def discreteIndex (iteration iter_limit : ℕ) : ℤ :=
  round (sinpi ((iteration : ℝ) / (iter_limit : ℝ) / 2) * 16)

/-- The palette table of the discrete kernel, declared unsigned char
palette[16][3]: fifteen rows are written in the source and aggregate
initialization zero-fills the sixteenth row. -/
def palette : List (ℕ × ℕ × ℕ) :=
  [(66, 30, 15), (25, 7, 26), (9, 1, 47), (4, 4, 73), (0, 7, 100),
   (12, 44, 138), (24, 82, 177), (57, 125, 209), (134, 181, 229),
   (221, 236, 248), (241, 201, 95), (255, 170, 0), (204, 128, 0),
   (153, 87, 0), (106, 52, 3), (0, 0, 0)]

/-- RGBA value the discrete kernel writes for one pixel; none models a palette
access outside the sixteen declared rows. -/
noncomputable def discreteColorMap (iteration iter_limit : ℕ) : Option (ℕ × ℕ × ℕ × ℕ) :=
  if iteration = iter_limit then some (0, 0, 0, 255)
  else
    if 0 ≤ discreteIndex iteration iter_limit then
      match palette.get? (discreteIndex iteration iter_limit).toNat with
      | some p => some (p.1, p.2.1, p.2.2, 255)
      | none => none
    else none

/-- Modelled from the spec (claim C3 wording): palette index
round (sin (pi/2 * iteration / iter_limit) * (paletteSize - 1)) clamped to
the range [0, paletteSize - 1] with paletteSize = 16. -/
noncomputable def specDiscreteIdx (iteration iter_limit : ℕ) : ℤ :=
  max 0 (min 15 (round (Real.sin (Real.pi / 2 * ((iteration : ℝ) / (iter_limit : ℝ))) * 15)))

/-- Saturating conversion modelling the Rust cast from f32 to u8. -/
noncomputable def u8cast (r : ℝ) : ℕ := (max 0 (min 255 ⌊r⌋)).toNat

/-- Continuous-gradient mapper, fn color of both hosts: interior pixels map to
opaque black, others to the gradient sampled at
log2 (iter / MAX_ITER * 4 + 1) / log2 (4 + 1). The gradient lookup grad.get
of the palette crate is an external collaborator, taken as a parameter. -/
noncomputable def color (grad : ℝ → ℝ × ℝ × ℝ) (iter : ℕ) : ℕ × ℕ × ℕ × ℕ :=
  if iter = MAX_ITER then (0, 0, 0, 255)
  else
    let x := Real.logb 2 ((iter : ℝ) / (MAX_ITER : ℝ) * 4 + 1) / Real.logb 2 (4 + 1)
    (u8cast (grad x).1, u8cast (grad x).2.1, u8cast (grad x).2.2, 255)

lemma cos_pi_div_512_lb : (1 : ℝ) - 1 / 50000 ≤ Real.cos (Real.pi / 512) := by
  have h0 : (0 : ℝ) ≤ Real.pi / 512 := by positivity
  have h1 : Real.pi / 512 ≤ 3.15 / 512 := by
    have h := Real.pi_lt_d2
    norm_num at h ⊢
    linarith
  have h3 : 1 - (Real.pi / 512) ^ 2 / 2 ≤ Real.cos (Real.pi / 512) :=
    Real.one_sub_sq_div_two_le_cos
  nlinarith [h3, h1, h0]

lemma sin_arg_255 : Real.sin (Real.pi * ((255 : ℝ) / 256 / 2)) = Real.cos (Real.pi / 512) := by
  have h : Real.pi * ((255 : ℝ) / 256 / 2) = Real.pi / 2 - Real.pi / 512 := by ring
  rw [h, Real.sin_pi_div_two_sub]

lemma discreteIndex_255 : discreteIndex 255 256 = 16 := by
  unfold discreteIndex sinpi
  have hc : ((255 : ℕ) : ℝ) / ((256 : ℕ) : ℝ) / 2 = (255 : ℝ) / 256 / 2 := by norm_num
  rw [hc, sin_arg_255, round_eq]
  have hub := Real.cos_le_one (Real.pi / 512)
  have hlb := cos_pi_div_512_lb
  rw [Int.floor_eq_iff]
  constructor
  · push_cast
    linarith
  · push_cast
    linarith

lemma specDiscreteIdx_255 : specDiscreteIdx 255 256 = 15 := by
  unfold specDiscreteIdx
  have hc : ((255 : ℕ) : ℝ) / ((256 : ℕ) : ℝ) = (255 : ℝ) / 256 := by norm_num
  rw [hc]
  have harg : Real.pi / 2 * ((255 : ℝ) / 256) = Real.pi / 2 - Real.pi / 512 := by ring
  rw [harg, Real.sin_pi_div_two_sub, round_eq]
  have hub := Real.cos_le_one (Real.pi / 512)
  have hlb := cos_pi_div_512_lb
  have hfloor : ⌊Real.cos (Real.pi / 512) * 15 + 1/2⌋ = (15 : ℤ) := by
    rw [Int.floor_eq_iff]
    constructor
    · push_cast
      linarith
    · push_cast
      linarith
  rw [hfloor]
  decide

/-- C3 counterexample: at iteration 255 with iter_limit 256 the kernel
computes palette index 16, while the index described by the claim (factor
paletteSize - 1 = 15, clamped to [0, 15]) is 15. -/
theorem discreteIndex_ne_spec :
    discreteIndex 255 256 = 16 ∧ specDiscreteIdx 255 256 = 15 ∧
      discreteIndex 255 256 ≠ specDiscreteIdx 255 256 := by
  refine ⟨discreteIndex_255, specDiscreteIdx_255, ?_⟩
  rw [discreteIndex_255, specDiscreteIdx_255]
  decide

lemma discreteIndex_nonneg (i L : ℕ) (h : i < L) : 0 ≤ discreteIndex i L := by
  have hL : (0 : ℝ) < (L : ℝ) := by
    have : 0 < L := Nat.pos_of_ne_zero (by omega)
    exact_mod_cast this
  have hx0 : (0 : ℝ) ≤ (i : ℝ) / (L : ℝ) := by positivity
  have harg0 : (0 : ℝ) ≤ Real.pi * ((i : ℝ) / (L : ℝ) / 2) := by positivity
  have hx1 : (i : ℝ) / (L : ℝ) ≤ 1 := by
    rw [div_le_one hL]
    exact_mod_cast le_of_lt h
  have harg1 : Real.pi * ((i : ℝ) / (L : ℝ) / 2) ≤ Real.pi := by
    have hpi := Real.pi_pos
    nlinarith
  have hs := Real.sin_nonneg_of_nonneg_of_le_pi harg0 harg1
  unfold discreteIndex sinpi
  rw [round_eq]
  apply Int.le_floor.mpr
  push_cast
  nlinarith

lemma discreteIndex_le_16 (i L : ℕ) : discreteIndex i L ≤ 16 := by
  unfold discreteIndex sinpi
  rw [round_eq]
  have hs := Real.sin_le_one (Real.pi * ((i : ℝ) / (L : ℝ) / 2))
  apply Int.floor_le_iff.mpr
  push_cast
  linarith

/-- C3 amended: in discrete mode an escaped pixel (iteration < iter_limit)
gets palette index round (sinpi ((iteration / iter_limit) / 2) * 16) with no
clamping; the index always lies in [0, 16], and the kernel writes the indexed
palette row with alpha 255 when the index is at most 15, while index 16 is an
access one past the last row of the table. Interior pixels map to opaque
black. -/
theorem discreteColorMap_escaped (i L : ℕ) (h : i < L) :
    0 ≤ discreteIndex i L ∧ discreteIndex i L ≤ 16 ∧
      discreteColorMap i L = (palette.get? (discreteIndex i L).toNat).map
        (fun p => (p.1, p.2.1, p.2.2, 255)) := by
  refine ⟨discreteIndex_nonneg i L h, discreteIndex_le_16 i L, ?_⟩
  have hne : i ≠ L := Nat.ne_of_lt h
  unfold discreteColorMap
  rw [if_neg hne, if_pos (discreteIndex_nonneg i L h)]
  cases hp : palette.get? (discreteIndex i L).toNat <;> simp [hp]

/-- Witness for C3 amended at iteration 0, iter_limit 1. -/
theorem discreteColorMap_escaped_witness : 0 ≤ discreteIndex 0 1 :=
  (discreteColorMap_escaped 0 1 (by decide)).1

/-- C10: at iteration 255 of limit 256 the kernel computes palette row index
16, one past the last valid row 15 of the sixteen-row table, so the palette
access is out of bounds. -/
theorem discreteIndex_oob :
    discreteIndex 255 256 = 16 ∧ discreteColorMap 255 256 = none := by
  refine ⟨discreteIndex_255, ?_⟩
  have hne : (255 : ℕ) ≠ 256 := by decide
  unfold discreteColorMap
  rw [if_neg hne, discreteIndex_255]
  norm_num
  rfl

/-- C7: in both coloring modes every interior pixel maps to the opaque black
RGBA value (0, 0, 0, 255): the discrete kernel checks iteration == iter_limit
and fn color checks iter == MAX_ITER. -/
theorem interior_black (L : ℕ) (g : ℝ → ℝ × ℝ × ℝ) :
    discreteColorMap L L = some (0, 0, 0, 255) ∧ color g MAX_ITER = (0, 0, 0, 255) := by
  constructor
  · unfold discreteColorMap
    rw [if_pos rfl]
  · unfold color
    rw [if_pos rfl]

/-- C9: both color mappers are pure functions of their inputs: two invocations
on equal iteration counts, equal limits and equal gradients produce identical
RGBA outputs. -/
theorem color_deterministic (i1 i2 L1 L2 : ℕ) (g1 g2 : ℝ → ℝ × ℝ × ℝ)
    (hi : i1 = i2) (hL : L1 = L2) (hg : g1 = g2) :
    discreteColorMap i1 L1 = discreteColorMap i2 L2 ∧ color g1 i1 = color g2 i2 := by
  subst hi
  subst hL
  subst hg
  exact ⟨rfl, rfl⟩

/-- Witness for C9 at iteration 3, limit 7, a constant gradient. -/
theorem color_deterministic_witness :
    discreteColorMap 3 7 = discreteColorMap 3 7 ∧
      color (fun t => (t, t, t)) 3 = color (fun t => (t, t, t)) 3 :=
  color_deterministic 3 3 7 7 (fun t => (t, t, t)) (fun t => (t, t, t)) rfl rfl rfl
